import Mathlib

/-!
Verification of the signal-synthesis and FFT core of the
fourier-transform-visualization repository (src/app.rs).

The Rust code works on `f64` / `Complex<f64>`; we embed it with exact real
and complex arithmetic (`ℝ`, `ℂ`), the standard idealisation for
floating-point numeric code.  Machine-specific IEEE behaviour that the
real numbers cannot express (division by zero producing `+∞`) is modelled
explicitly at the one place it occurs and documented there.
-/

open scoped BigOperators

namespace FourierViz

/-- Embeds Rust `enum PeriodicFunction { Sin, Cos }`. -/
inductive PeriodicFunction where
  | Sin : PeriodicFunction
  | Cos : PeriodicFunction
deriving DecidableEq

/-- Embeds Rust `struct InputData { function, amplitude, frequency, y_shift }`. -/
structure InputData where
  function : PeriodicFunction
  amplitude : ℝ
  frequency : ℝ
  y_shift : ℝ

/-- Embeds the match `PeriodicFunction::Sin => f64::sin, PeriodicFunction::Cos => f64::cos`
used inside `get_combined_wave`. -/
noncomputable def applied_function : PeriodicFunction → (ℝ → ℝ)
  | PeriodicFunction.Sin => Real.sin
  | PeriodicFunction.Cos => Real.cos

/-- Embeds the inner accumulation loop of `get_combined_wave`:
`let mut sum = 0.0; for function in functions.iter() { sum += applied_function(i * frequency) * amplitude + y_shift }`. -/
noncomputable def waveSum (functions : List InputData) (i : ℝ) : ℝ :=
  functions.foldl
    (fun sum f =>
      sum + (applied_function f.function (i * f.frequency) * f.amplitude + f.y_shift)) 0

/-- Embeds the sampling loop of `get_combined_wave`:
`let mut i = 0.0; while i < input_signal_range { input.push((i, sum.into())); i += step_size; }`.
The loop is rendered with an explicit iteration budget (`fuel`); in exact real
arithmetic with `step = range / n > 0` the guard fails after exactly `n`
iterations, and the stabilisation theorem below shows any budget of at least
`n` yields the same list, i.e. the source loop runs to completion. -/
noncomputable def combinedLoop (functions : List InputData) (range step : ℝ) :
    ℕ → ℝ → List (ℝ × ℂ)
  | 0, _ => []
  | fuel + 1, i =>
    if i < range then
      (i, (waveSum functions i : ℂ)) :: combinedLoop functions range step fuel (i + step)
    else []

/-- Embeds Rust `fn get_combined_wave(functions, num_samples, input_signal_range)`.
`step_size = input_signal_range / num_samples as f64`.  For `num_samples = 0`
the Rust `f64` division gives `step_size = +∞` when the range is positive
(so the loop body runs exactly once, at `i = 0`, then `i = +∞` exits the
guard) and the guard `0 < range` fails immediately otherwise; that IEEE
behaviour is modelled by the explicit first branch.  For `num_samples ≥ 1`
the loop needs at most `num_samples` iterations (see
`combinedLoop_stable`), which the fuel argument supplies. -/
noncomputable def get_combined_wave (functions : List InputData) (num_samples : ℕ)
    (input_signal_range : ℝ) : List (ℝ × ℂ) :=
  if num_samples = 0 then
    if 0 < input_signal_range then [((0 : ℝ), (waveSum functions 0 : ℂ))] else []
  else
    combinedLoop functions input_signal_range (input_signal_range / num_samples)
      num_samples 0

lemma foldl_add_eq_sum (g : InputData → ℝ) :
    ∀ (l : List InputData) (a : ℝ), l.foldl (fun s c => s + g c) a = a + (l.map g).sum
  | [], a => by simp
  | c :: l, a => by
    simp only [List.foldl_cons, List.map_cons, List.sum_cons]
    rw [foldl_add_eq_sum g l (a + g c)]
    ring

lemma waveSum_eq_sum (functions : List InputData) (x : ℝ) :
    waveSum functions x =
      (functions.map (fun f =>
        applied_function f.function (x * f.frequency) * f.amplitude + f.y_shift)).sum := by
  unfold waveSum
  rw [foldl_add_eq_sum]
  ring

lemma waveSum_append (l₁ l₂ : List InputData) (x : ℝ) :
    waveSum (l₁ ++ l₂) x = waveSum l₁ x + waveSum l₂ x := by
  simp [waveSum_eq_sum]

lemma waveSum_nil (x : ℝ) : waveSum [] x = 0 := rfl

lemma loop_guard_iff (n : ℕ) (range : ℝ) (hn : 0 < n) (hr : 0 < range) (k : ℕ) :
    ((k : ℝ) * (range / n) < range ↔ k < n) := by
  have hn' : (0 : ℝ) < n := by exact_mod_cast hn
  have h1 : (k : ℝ) * (range / n) = range * ((k : ℝ) / n) := by ring
  rw [h1]
  constructor
  · intro h
    have h2 : (k : ℝ) / n < 1 := by
      by_contra hc
      push_neg at hc
      have : range * 1 ≤ range * ((k : ℝ) / n) :=
        mul_le_mul_of_nonneg_left hc (le_of_lt hr)
      simp at this
      linarith
    rw [div_lt_one hn'] at h2
    exact_mod_cast h2
  · intro h
    have h2 : (k : ℝ) / n < 1 := by
      rw [div_lt_one hn']
      exact_mod_cast h
    calc range * ((k : ℝ) / n) < range * 1 := by
          exact mul_lt_mul_of_pos_left h2 hr
      _ = range := by ring

lemma combinedLoop_closed (functions : List InputData) (n : ℕ) (range : ℝ)
    (hn : 0 < n) (hr : 0 < range) :
    ∀ (fuel k : ℕ), n ≤ k + fuel →
      combinedLoop functions range (range / n) fuel ((k : ℝ) * (range / n)) =
        (List.range' k (n - k)).map (fun (j : ℕ) =>
          ((j : ℝ) * (range / n), (waveSum functions ((j : ℝ) * (range / n)) : ℂ))) := by
  intro fuel
  induction fuel with
  | zero =>
    intro k hk
    have h0 : n - k = 0 := by omega
    simp [combinedLoop, h0]
  | succ f ih =>
    intro k hk
    rw [combinedLoop]
    by_cases hg : (k : ℝ) * (range / n) < range
    · have hkn : k < n := (loop_guard_iff n range hn hr k).mp hg
      rw [if_pos hg]
      have harg : (k : ℝ) * (range / n) + range / n = ((k + 1 : ℕ) : ℝ) * (range / n) := by
        push_cast
        ring
      rw [harg, ih (k + 1) (by omega)]
      have hnk : n - k = (n - (k + 1)) + 1 := by omega
      rw [hnk, List.range'_succ, List.map_cons]
    · have hkn : ¬ k < n := fun h => hg ((loop_guard_iff n range hn hr k).mpr h)
      rw [if_neg hg]
      have h0 : n - k = 0 := by omega
      simp [h0]

lemma get_combined_wave_closed (functions : List InputData) (n : ℕ) (range : ℝ)
    (hn : 0 < n) (hr : 0 < range) :
    get_combined_wave functions n range =
      (List.range n).map (fun (j : ℕ) =>
        ((j : ℝ) * (range / n), (waveSum functions ((j : ℝ) * (range / n)) : ℂ))) := by
  unfold get_combined_wave
  rw [if_neg (by omega : ¬ n = 0)]
  have h := combinedLoop_closed functions n range hn hr n 0 (by omega)
  simp only [Nat.cast_zero, zero_mul, Nat.sub_zero] at h
  rw [h, List.range_eq_range']

lemma combinedLoop_nonpos (functions : List InputData) (range step : ℝ)
    (hr : range ≤ 0) : ∀ fuel : ℕ, combinedLoop functions range step fuel 0 = [] := by
  intro fuel
  cases fuel with
  | zero => rfl
  | succ f =>
    rw [combinedLoop]
    rw [if_neg (by linarith)]

lemma combinedLoop_stable (functions : List InputData) (n : ℕ) (range : ℝ)
    (hn : 0 < n) : ∀ fuel : ℕ, n ≤ fuel →
      combinedLoop functions range (range / n) fuel 0 =
        combinedLoop functions range (range / n) n 0 := by
  intro fuel hfuel
  rcases le_or_lt range 0 with hr | hr
  · rw [combinedLoop_nonpos functions range _ hr, combinedLoop_nonpos functions range _ hr]
  · have h1 := combinedLoop_closed functions n range hn hr fuel 0 (by omega)
    have h2 := combinedLoop_closed functions n range hn hr n 0 (by omega)
    simp only [Nat.cast_zero, zero_mul] at h1 h2
    rw [h1, h2]

lemma combinedLoop_snd (functions : List InputData) (range step : ℝ) :
    ∀ (fuel : ℕ) (i : ℝ), ∀ p ∈ combinedLoop functions range step fuel i,
      p.2 = (waveSum functions p.1 : ℂ) := by
  intro fuel
  induction fuel with
  | zero => intro i p hp; simp [combinedLoop] at hp
  | succ f ih =>
    intro i p hp
    rw [combinedLoop] at hp
    by_cases hg : i < range
    · rw [if_pos hg, List.mem_cons] at hp
      rcases hp with rfl | hp
      · rfl
      · exact ih (i + step) p hp
    · rw [if_neg hg] at hp
      simp at hp

/-- Embeds `input.iter().step_by(2)`: the elements at indices 0, 2, 4, … -/
def evens {α : Type} : List α → List α
  | [] => []
  | [a] => [a]
  | a :: _ :: rest => a :: evens rest

/-- Embeds `input.iter().skip(1).step_by(2)`: the elements at indices 1, 3, 5, … -/
def odds {α : Type} : List α → List α
  | [] => []
  | [_] => []
  | _ :: b :: rest => b :: odds rest

lemma evens_length {α : Type} : ∀ l : List α, (evens l).length = (l.length + 1) / 2
  | [] => by simp [evens]
  | [_] => by simp [evens]
  | _ :: _ :: rest => by
    simp only [evens, List.length_cons, evens_length rest]
    omega

lemma odds_length {α : Type} : ∀ l : List α, (odds l).length = l.length / 2
  | [] => by simp [odds]
  | [_] => by simp [odds]
  | _ :: _ :: rest => by
    simp only [odds, List.length_cons, odds_length rest]
    omega

lemma evens_getD {α : Type} (d : α) :
    ∀ (l : List α) (r : ℕ), (evens l).getD r d = l.getD (2 * r) d
  | [], r => by simp [evens]
  | [a], r => by
    cases r with
    | zero => rfl
    | succ s =>
      have h : 2 * (s + 1) = 2 * s + 1 + 1 := by omega
      simp [evens, h, List.getD]
  | a :: b :: rest, r => by
    cases r with
    | zero => rfl
    | succ s =>
      have h : 2 * (s + 1) = 2 * s + 1 + 1 := by omega
      simp only [evens, h, List.getD_cons_succ]
      exact evens_getD d rest s

lemma odds_getD {α : Type} (d : α) :
    ∀ (l : List α) (r : ℕ), (odds l).getD r d = l.getD (2 * r + 1) d
  | [], r => by simp [odds]
  | [a], r => by
    cases r with
    | zero => rfl
    | succ s =>
      have h : 2 * (s + 1) + 1 = 2 * s + 1 + 1 + 1 := by omega
      simp [odds, h, List.getD]
  | a :: b :: rest, r => by
    cases r with
    | zero => rfl
    | succ s =>
      have h : 2 * (s + 1) + 1 = 2 * s + 1 + 1 + 1 := by omega
      simp only [odds, h, List.getD_cons_succ]
      exact odds_getD d rest s

/-- Embeds `Complex::from_polar(r, theta)` of the num-complex crate:
the complex number `(r cos θ, r sin θ)`. -/
noncomputable def from_polar (r θ : ℝ) : ℂ :=
  (r : ℂ) * (Real.cos θ : ℂ) + (r : ℂ) * (Real.sin θ : ℂ) * Complex.I

/-- Embeds the twiddle-factor expression of `fft`:
`Complex::from_polar(1.0, -2.0 * PI * i as f64 / n as f64)`. -/
noncomputable def fftTwiddle (n i : ℕ) : ℂ :=
  from_polar 1 (-2 * Real.pi * i / n)

/-- Embeds Rust `fn fft(input: &mut [Complex<f64>])` (recursive radix-2
decimation in time).  The in-place mutation is rendered as the returned list:
position `i < n/2` receives `even[i] + t_i`, position `n/2 ≤ i < 2*(n/2)`
receives `even[i - n/2] - t_{i-n/2}`, and any remaining position (only
`i = n - 1` when `n` is odd) keeps the original element, since the Rust loop
writes only indices `i` and `i + n/2` for `i < n/2`.  The recursive results
`even`/`odd` are computed once in Rust; repeating the pure calls is
value-identical. -/
noncomputable def fft (input : List ℂ) : List ℂ :=
  if _h : input.length ≤ 1 then input
  else
    (List.range input.length).map (fun i =>
      if i < input.length / 2 then
        (fft (evens input)).getD i 0 +
          fftTwiddle input.length i * (fft (odds input)).getD i 0
      else if i < input.length / 2 + input.length / 2 then
        (fft (evens input)).getD (i - input.length / 2) 0 -
          fftTwiddle input.length (i - input.length / 2) *
            (fft (odds input)).getD (i - input.length / 2) 0
      else input.getD i 0)
termination_by input.length
decreasing_by
  · rw [evens_length]
    omega
  · rw [odds_length]
    omega
  · rw [evens_length]
    omega
  · rw [odds_length]
    omega

lemma fft_length (l : List ℂ) : (fft l).length = l.length := by
  rw [fft]
  split
  · rfl
  · simp

/-- The discrete Fourier transform, as the specification states it:
`output[k] = Σ_j input[j] · e^{-2πi·j·k/n}`.  This is the specification-side
definition against which `fft` is compared. -/
noncomputable def dft (l : List ℂ) : List ℂ :=
  (List.range l.length).map (fun k =>
    ∑ j in Finset.range l.length,
      l.getD j 0 * Complex.exp ((((-2) * Real.pi * (j * k : ℕ) / l.length : ℝ)) * Complex.I))

lemma dft_length (l : List ℂ) : (dft l).length = l.length := by
  simp [dft]

/-- The primitive `n`-th root of unity `e^{-2πi/n}` used to restate the
DFT entries in power form. -/
noncomputable def unitRoot (n : ℕ) : ℂ :=
  Complex.exp ((((-2) * Real.pi / n : ℝ)) * Complex.I)

lemma unitRoot_pow (n m : ℕ) :
    (unitRoot n) ^ m = Complex.exp ((((-2) * Real.pi * m / n : ℝ)) * Complex.I) := by
  rw [unitRoot, ← Complex.exp_nat_mul]
  congr 1
  push_cast
  ring

lemma dft_getD (l : List ℂ) (k : ℕ) (hk : k < l.length) :
    (dft l).getD k 0 =
      ∑ j in Finset.range l.length, l.getD j 0 * (unitRoot l.length) ^ (j * k) := by
  have hk' : k < (dft l).length := by rw [dft_length]; exact hk
  rw [List.getD_eq_getElem _ _ hk']
  simp only [dft, List.getElem_map, List.getElem_range]
  refine Finset.sum_congr rfl (fun j hj => ?_)
  rw [unitRoot_pow]

lemma unitRoot_sq (M : ℕ) (hM : M ≠ 0) : (unitRoot (2 * M)) ^ 2 = unitRoot M := by
  rw [unitRoot_pow, unitRoot]
  congr 2
  have hM' : (M : ℝ) ≠ 0 := Nat.cast_ne_zero.mpr hM
  push_cast
  field_simp
  ring

lemma unitRoot_pow_self (M : ℕ) (hM : M ≠ 0) : (unitRoot M) ^ M = 1 := by
  rw [unitRoot_pow]
  have hM' : (M : ℝ) ≠ 0 := Nat.cast_ne_zero.mpr hM
  have h : ((-2) * Real.pi * M / M : ℝ) = -(2 * Real.pi) := by
    field_simp
  rw [h]
  push_cast
  rw [neg_mul, Complex.exp_neg]
  have h2 : ((2 : ℂ) * Real.pi * Complex.I) = 2 * (Real.pi : ℂ) * Complex.I := by ring
  rw [h2, Complex.exp_two_pi_mul_I]
  norm_num

lemma unitRoot_half (M : ℕ) (hM : M ≠ 0) : (unitRoot (2 * M)) ^ M = -1 := by
  rw [unitRoot_pow]
  have hM' : (M : ℝ) ≠ 0 := Nat.cast_ne_zero.mpr hM
  have h : ((-2) * Real.pi * M / (2 * M : ℕ) : ℝ) = -Real.pi := by
    push_cast
    field_simp
    ring
  rw [h]
  push_cast
  rw [neg_mul, Complex.exp_neg, Complex.exp_pi_mul_I]
  norm_num

lemma from_polar_one (θ : ℝ) : from_polar 1 θ = Complex.exp ((θ : ℂ) * Complex.I) := by
  rw [from_polar, Complex.exp_mul_I]
  simp [Complex.ofReal_cos, Complex.ofReal_sin]

lemma fftTwiddle_eq_pow (n i : ℕ) : fftTwiddle n i = (unitRoot n) ^ i := by
  rw [fftTwiddle, unitRoot_pow, from_polar_one]

lemma sum_range_double (M : ℕ) (f : ℕ → ℂ) :
    ∑ j in Finset.range (2 * M), f j =
      ∑ r in Finset.range M, (f (2 * r) + f (2 * r + 1)) := by
  induction M with
  | zero => simp
  | succ m ih =>
    have h : 2 * (m + 1) = (2 * m + 1) + 1 := by omega
    rw [h, Finset.sum_range_succ, Finset.sum_range_succ, ih, Finset.sum_range_succ]
    rw [add_assoc]

lemma dft_split (l : List ℂ) (M : ℕ) (hM : M ≠ 0) (hl : l.length = 2 * M)
    (k : ℕ) (hk : k < 2 * M) :
    (dft l).getD k 0 =
      (∑ r in Finset.range M, (evens l).getD r 0 * (unitRoot M) ^ (r * k)) +
        (unitRoot (2 * M)) ^ k *
          ∑ r in Finset.range M, (odds l).getD r 0 * (unitRoot M) ^ (r * k) := by
  rw [dft_getD l k (by rw [hl]; exact hk), hl, sum_range_double]
  have hstep : ∀ r ∈ Finset.range M,
      l.getD (2 * r) 0 * (unitRoot (2 * M)) ^ ((2 * r) * k) +
        l.getD (2 * r + 1) 0 * (unitRoot (2 * M)) ^ ((2 * r + 1) * k) =
      (evens l).getD r 0 * (unitRoot M) ^ (r * k) +
        (unitRoot (2 * M)) ^ k * ((odds l).getD r 0 * (unitRoot M) ^ (r * k)) := by
    intro r _
    have e1 : (unitRoot (2 * M)) ^ (2 * r * k) = (unitRoot M) ^ (r * k) := by
      rw [show 2 * r * k = 2 * (r * k) by ring, pow_mul, unitRoot_sq M hM]
    have e2 : (unitRoot (2 * M)) ^ ((2 * r + 1) * k) =
        (unitRoot (2 * M)) ^ k * (unitRoot M) ^ (r * k) := by
      rw [show (2 * r + 1) * k = 2 * (r * k) + k by ring, pow_add, pow_mul,
        unitRoot_sq M hM]
      ring
    rw [e1, e2, ← evens_getD, ← odds_getD]
    ring
  rw [Finset.sum_congr rfl hstep, Finset.sum_add_distrib, Finset.mul_sum]

lemma fft_combine (l : List ℂ) (M : ℕ) (hM : M ≠ 0) (hl2 : l.length = 2 * M)
    (hev : fft (evens l) = dft (evens l)) (hod : fft (odds l) = dft (odds l)) :
    fft l = dft l := by
  have hlen2 : ¬ (l.length ≤ 1) := by rw [hl2]; omega
  have hhalf : l.length / 2 = M := by rw [hl2]; omega
  have hev_len : (evens l).length = M := by rw [evens_length, hl2]; omega
  have hod_len : (odds l).length = M := by rw [odds_length, hl2]; omega
  rw [fft, dif_neg hlen2]
  apply List.ext_getElem
  · simp [dft_length]
  · intro k hk1 hk2
    have hk : k < l.length := by simpa using hk1
    have hk2M : k < 2 * M := by rw [← hl2]; exact hk
    rw [List.getElem_map, List.getElem_range,
      ← List.getD_eq_getElem (dft l) 0 hk2,
      dft_split l M hM hl2 k hk2M, hhalf, hev, hod, hl2]
    by_cases hkM : k < M
    · rw [if_pos hkM, fftTwiddle_eq_pow,
        dft_getD _ k (by rw [hev_len]; exact hkM),
        dft_getD _ k (by rw [hod_len]; exact hkM),
        hev_len, hod_len]
    · rw [if_neg hkM, if_pos (by omega : k < M + M), fftTwiddle_eq_pow,
        dft_getD _ (k - M) (by rw [hev_len]; omega),
        dft_getD _ (k - M) (by rw [hod_len]; omega),
        hev_len, hod_len]
      have hs : k - M + M = k := by omega
      have hexp : ∀ r : ℕ, (unitRoot M) ^ (r * k) = (unitRoot M) ^ (r * (k - M)) := by
        intro r
        have hone : (unitRoot M) ^ (M * r) = 1 := by
          rw [pow_mul, unitRoot_pow_self M hM, one_pow]
        conv_lhs => rw [← hs]
        rw [show r * (k - M + M) = r * (k - M) + M * r by ring, pow_add, hone, mul_one]
      have hu : (unitRoot (2 * M)) ^ k = -((unitRoot (2 * M)) ^ (k - M)) := by
        conv_lhs => rw [← hs]
        rw [pow_add, unitRoot_half M hM]
        ring
      have hsum_ev : ∑ r in Finset.range M, (evens l).getD r 0 * (unitRoot M) ^ (r * k) =
          ∑ r in Finset.range M, (evens l).getD r 0 * (unitRoot M) ^ (r * (k - M)) :=
        Finset.sum_congr rfl (fun r _ => by rw [hexp r])
      have hsum_od : ∑ r in Finset.range M, (odds l).getD r 0 * (unitRoot M) ^ (r * k) =
          ∑ r in Finset.range M, (odds l).getD r 0 * (unitRoot M) ^ (r * (k - M)) :=
        Finset.sum_congr rfl (fun r _ => by rw [hexp r])
      rw [hsum_ev, hsum_od, hu]
      ring

lemma fft_eq_dft_aux (m : ℕ) : ∀ l : List ℂ, l.length = 2 ^ m → fft l = dft l := by
  induction m with
  | zero =>
    intro l hl
    simp only [pow_zero] at hl
    obtain ⟨a, rfl⟩ := List.length_eq_one.mp hl
    rw [fft, dif_pos (by simp)]
    simp [dft, Finset.sum_range_one]
  | succ m ih =>
    intro l hl
    have hM : (2 : ℕ) ^ m ≠ 0 := by positivity
    refine fft_combine l (2 ^ m) hM (by rw [hl]; ring) (ih _ ?_) (ih _ ?_)
    · rw [evens_length, hl, pow_succ]
      omega
    · rw [odds_length, hl, pow_succ]
      omega

lemma fft_single (a : ℂ) : fft [a] = [a] := by
  rw [fft]
  simp

lemma fft_pair_10 : fft ([1, 0] : List ℂ) = [1, 1] := by
  rw [fft, dif_neg (by simp)]
  norm_num [evens, odds, fft_single, List.range_succ, List.getD]

lemma fft_pair_00 : fft ([0, 0] : List ℂ) = [0, 0] := by
  rw [fft, dif_neg (by simp)]
  norm_num [evens, odds, fft_single, List.range_succ, List.getD]

lemma fft_triple_000 : fft ([0, 0, 0] : List ℂ) = [0, 0, 0] := by
  rw [fft, dif_neg (by simp)]
  norm_num [evens, odds, fft_single, fft_pair_00, List.range_succ, List.getD]

lemma fft_triple_100 : fft ([1, 0, 0] : List ℂ) = [1, 1, 0] := by
  rw [fft, dif_neg (by simp)]
  norm_num [evens, odds, fft_single, fft_pair_10, List.range_succ, List.getD]

lemma fft_six : fft ([1, 0, 0, 0, 0, 0] : List ℂ) = [1, 1, 0, 1, 1, 0] := by
  rw [fft, dif_neg (by simp)]
  norm_num [evens, odds, fft_triple_100, fft_triple_000, List.range_succ, List.getD]

lemma dft_six : dft ([1, 0, 0, 0, 0, 0] : List ℂ) = [1, 1, 1, 1, 1, 1] := by
  norm_num [dft, List.range_succ, Finset.sum_range_succ, List.getD]

lemma gcw_eval_sin : get_combined_wave [⟨PeriodicFunction.Sin, 2, 3, 5⟩] 1 1 =
    [((0 : ℝ), (5 : ℂ))] := by
  norm_num [get_combined_wave, combinedLoop, waveSum, applied_function]

lemma gcw_eval_nil : get_combined_wave [] 1 1 = [((0 : ℝ), (0 : ℂ))] := by
  norm_num [get_combined_wave, combinedLoop, waveSum]

lemma gcw_eval_zero_samples : get_combined_wave [⟨PeriodicFunction.Cos, 1, 1, 0⟩] 0 1 =
    [((0 : ℝ), (1 : ℂ))] := by
  norm_num [get_combined_wave, waveSum, applied_function]

lemma combinedLoop_superpose (l₁ l₂ : List InputData) (range step : ℝ) :
    ∀ (fuel : ℕ) (i : ℝ),
      List.zipWith (· + ·) ((combinedLoop l₁ range step fuel i).map Prod.snd)
        ((combinedLoop l₂ range step fuel i).map Prod.snd) =
      (combinedLoop (l₁ ++ l₂) range step fuel i).map Prod.snd := by
  intro fuel
  induction fuel with
  | zero => intro i; simp [combinedLoop]
  | succ f ih =>
    intro i
    simp only [combinedLoop]
    by_cases hg : i < range
    · rw [if_pos hg, if_pos hg, if_pos hg]
      simp only [List.map_cons, List.zipWith_cons_cons]
      rw [ih]
      congr 1
      rw [waveSum_append]
      push_cast
      ring
    · rw [if_neg hg, if_neg hg, if_neg hg]
      simp

/-- C1: for every input sequence of complex samples whose length is a power of
two, `fft` rewrites the sequence to its discrete Fourier transform, following
the recursive radix-2 decimation-in-time scheme (the scheme is the definition
of `fft` itself; this theorem states that it produces exactly the DFT). -/
theorem c1_fft_computes_dft (l : List ℂ) (m : ℕ) (h : l.length = 2 ^ m) :
    fft l = dft l :=
  fft_eq_dft_aux m l h

theorem c1_fft_computes_dft_witness :
    ([1, 0, 0, 0] : List ℂ).length = 2 ^ 2 ∧
      fft ([1, 0, 0, 0] : List ℂ) = dft [1, 0, 0, 0] :=
  ⟨rfl, c1_fft_computes_dft [1, 0, 0, 0] 2 rfl⟩

/-- C2: for sample_count > 0 and domain_range > 0, every sample value produced
by the synthesizer equals the sum over all components of
`f(x * frequency) * amplitude + y_shift`, with `f = sin` for Sine components
and `f = cos` for Cosine components. -/
theorem c2_sample_value_sum (functions : List InputData) (n : ℕ) (range : ℝ)
    (hn : 0 < n) (hr : 0 < range) :
    ∀ p ∈ get_combined_wave functions n range,
      p.2 = ((functions.map (fun f =>
        applied_function f.function (p.1 * f.frequency) * f.amplitude + f.y_shift)).sum
          : ℝ) := by
  intro p hp
  rw [get_combined_wave, if_neg (by omega : ¬ n = 0)] at hp
  rw [combinedLoop_snd functions range (range / n) n 0 p hp, waveSum_eq_sum]

theorem c2_sample_value_sum_witness :
    0 < 1 ∧ (0 : ℝ) < 1 ∧
      ((0 : ℝ), (5 : ℂ)) ∈ get_combined_wave [⟨PeriodicFunction.Sin, 2, 3, 5⟩] 1 1 ∧
      (((0 : ℝ), (5 : ℂ)).2 =
        ((([⟨PeriodicFunction.Sin, 2, 3, 5⟩] : List InputData).map (fun f =>
          applied_function f.function (((0 : ℝ), (5 : ℂ)).1 * f.frequency) * f.amplitude
            + f.y_shift)).sum : ℝ)) := by
  have hmem : ((0 : ℝ), (5 : ℂ)) ∈ get_combined_wave [⟨PeriodicFunction.Sin, 2, 3, 5⟩] 1 1 := by
    rw [gcw_eval_sin]
    simp
  exact ⟨by norm_num, by norm_num, hmem,
    c2_sample_value_sum [⟨PeriodicFunction.Sin, 2, 3, 5⟩] 1 1 (by norm_num) (by norm_num)
      ((0 : ℝ), (5 : ℂ)) hmem⟩

/-- C3 as stated is false: with `sample_count = 0` and a positive range the
synthesizer neither rejects nor clamps; the IEEE-infinite step makes the loop
emit exactly one sample, at position 0, whose value is the component sum at 0
(here `cos 0 * 1 + 0 = 1`), so the result is neither empty nor zero-filled. -/
theorem c3_counterexample :
    ¬ ((get_combined_wave [⟨PeriodicFunction.Cos, 1, 1, 0⟩] 0 1 = []) ∨
       (∀ p ∈ get_combined_wave [⟨PeriodicFunction.Cos, 1, 1, 0⟩] 0 1, p.2 = 0)) := by
  rw [gcw_eval_zero_samples]
  rintro (h | h)
  · exact List.cons_ne_nil _ _ h
  · have h1 := h ((0 : ℝ), (1 : ℂ)) (by simp)
    simp at h1

/-- C3 amended: with `sample_count = 0` the synthesizer does not crash and does
not emit NaN/Inf sample values; the IEEE division makes the step infinite, so
for a positive range the loop pushes exactly one sample `(0, Σ_c f_c(0))` and
stops, and for a non-positive range the result is empty. -/
theorem c3_amended_zero_samples (functions : List InputData) (range : ℝ) :
    get_combined_wave functions 0 range =
      if 0 < range then [((0 : ℝ), (waveSum functions 0 : ℂ))] else [] := by
  rw [get_combined_wave, if_pos rfl]

/-- C4 as stated is false: `fft` performs no validation of its input length.
On the length-6 impulse it returns normally a length-6 result,
`[1, 1, 0, 1, 1, 0]`, which differs from the true DFT `[1, 1, 1, 1, 1, 1]` —
a silent incorrect result rather than a typed error. -/
theorem c4_counterexample :
    fft ([1, 0, 0, 0, 0, 0] : List ℂ) = [1, 1, 0, 1, 1, 0] ∧
      dft ([1, 0, 0, 0, 0, 0] : List ℂ) = [1, 1, 1, 1, 1, 1] ∧
      fft ([1, 0, 0, 0, 0, 0] : List ℂ) ≠ dft [1, 0, 0, 0, 0, 0] := by
  refine ⟨fft_six, dft_six, ?_⟩
  rw [fft_six, dft_six]
  intro h
  simp at h

/-- C4 amended: `fft` does not validate its input length: on every input,
power of two or not, it returns normally a same-length result, and for
non-power-of-two lengths that result is in general not the DFT of the input
(witnessed by the length-6 impulse). -/
theorem c4_amended_no_validation :
    (∀ l : List ℂ, (fft l).length = l.length) ∧
      fft ([1, 0, 0, 0, 0, 0] : List ℂ) ≠ dft [1, 0, 0, 0, 0, 0] := by
  refine ⟨fft_length, ?_⟩
  rw [fft_six, dft_six]
  intro h
  simp at h

/-- C5: for sample_count > 0 and domain_range > 0, the i-th position equals
`i * step` with `step = range / sample_count`, the produced positions are
exactly those with `i * step < range` (half-open interval), and they are
strictly ascending. -/
theorem c5_positions (functions : List InputData) (n : ℕ) (range : ℝ)
    (hn : 0 < n) (hr : 0 < range) :
    ((get_combined_wave functions n range).map Prod.fst =
        (List.range n).map (fun (j : ℕ) => (j : ℝ) * (range / n))) ∧
      (∀ k : ℕ, ((k : ℝ) * (range / n) < range ↔ k < n)) ∧
      List.Pairwise (· < ·) ((get_combined_wave functions n range).map Prod.fst) := by
  have hfst : (get_combined_wave functions n range).map Prod.fst =
      (List.range n).map (fun (j : ℕ) => (j : ℝ) * (range / n)) := by
    rw [get_combined_wave_closed functions n range hn hr, List.map_map]
    rfl
  refine ⟨hfst, fun k => loop_guard_iff n range hn hr k, ?_⟩
  rw [hfst]
  have hstep : (0 : ℝ) < range / n :=
    div_pos hr (by exact_mod_cast hn)
  exact List.Pairwise.map _
    (fun a b hab => mul_lt_mul_of_pos_right (by exact_mod_cast hab) hstep)
    (List.pairwise_lt_range n)

theorem c5_positions_witness :
    0 < 2 ∧ (0 : ℝ) < 1 ∧
      ((((get_combined_wave [] 2 1).map Prod.fst =
          (List.range 2).map (fun (j : ℕ) => (j : ℝ) * (1 / ((2 : ℕ) : ℝ)))) ∧
        (∀ k : ℕ, ((k : ℝ) * (1 / ((2 : ℕ) : ℝ)) < 1 ↔ k < 2)) ∧
        List.Pairwise (· < ·) ((get_combined_wave [] 2 1).map Prod.fst))) :=
  ⟨by norm_num, by norm_num, c5_positions [] 2 1 (by norm_num) (by norm_num)⟩

/-- C6: both core operations run to completion: the sampling loop stabilises
at `n` iterations (any fuel budget of at least `n` produces the same finished
list), and the recursive `fft` is total, returning a finished result of the
input's length on every input. -/
theorem c6_terminates :
    (∀ (functions : List InputData) (n fuel : ℕ) (range : ℝ), 1 ≤ n → n ≤ fuel →
        combinedLoop functions range (range / n) fuel 0 =
          combinedLoop functions range (range / n) n 0) ∧
      (∀ l : List ℂ, (fft l).length = l.length) :=
  ⟨fun functions n fuel range hn hf => combinedLoop_stable functions n range hn fuel hf,
    fft_length⟩

theorem c6_terminates_witness :
    1 ≤ 1 ∧ 1 ≤ 3 ∧
      combinedLoop [] 1 (1 / ((1 : ℕ) : ℝ)) 3 0 = combinedLoop [] 1 (1 / ((1 : ℕ) : ℝ)) 1 0 ∧
      (fft ([] : List ℂ)).length = ([] : List ℂ).length :=
  ⟨by norm_num, by norm_num, c6_terminates.1 [] 1 3 1 (by norm_num) (by norm_num),
    c6_terminates.2 []⟩

/-- C7: synthesizing with an empty component list yields only zero sample
values, for every sample_count and domain_range. -/
theorem c7_empty_components (n : ℕ) (range : ℝ) :
    ∀ p ∈ get_combined_wave [] n range, p.2 = 0 := by
  intro p hp
  by_cases hn : n = 0
  · subst hn
    rw [get_combined_wave, if_pos rfl] at hp
    by_cases hr : 0 < range
    · rw [if_pos hr] at hp
      simp only [List.mem_singleton] at hp
      rw [hp, waveSum_nil]
      simp
    · rw [if_neg hr] at hp
      simp at hp
  · rw [get_combined_wave, if_neg hn] at hp
    rw [combinedLoop_snd [] range (range / n) n 0 p hp, waveSum_nil]
    simp

theorem c7_empty_components_witness :
    ((0 : ℝ), (0 : ℂ)) ∈ get_combined_wave [] 1 1 ∧ ((0 : ℝ), (0 : ℂ)).2 = 0 := by
  have hmem : ((0 : ℝ), (0 : ℂ)) ∈ get_combined_wave [] 1 1 := by
    rw [gcw_eval_nil]
    simp
  exact ⟨hmem, c7_empty_components 1 1 ((0 : ℝ), (0 : ℂ)) hmem⟩

/-- C8: for every component list and sample_count, a non-positive domain_range
yields the empty sequence. -/
theorem c8_nonpositive_range (functions : List InputData) (n : ℕ) (range : ℝ)
    (hr : range ≤ 0) : get_combined_wave functions n range = [] := by
  rw [get_combined_wave]
  by_cases hn : n = 0
  · rw [if_pos hn, if_neg (by linarith : ¬ 0 < range)]
  · rw [if_neg hn]
    exact combinedLoop_nonpos functions range (range / n) hr n

theorem c8_nonpositive_range_witness :
    (-1 : ℝ) ≤ 0 ∧ get_combined_wave [] 2 (-1) = [] :=
  ⟨by norm_num, c8_nonpositive_range [] 2 (-1) (by norm_num)⟩

/-- C9: superposition: adding pointwise the value sequences of `synthesize [A]`
and `synthesize [B]` equals the value sequence of `synthesize [A, B]`, for any
two components and any sample_count and domain_range. -/
theorem c9_superposition (A B : InputData) (n : ℕ) (range : ℝ) :
    List.zipWith (· + ·) ((get_combined_wave [A] n range).map Prod.snd)
        ((get_combined_wave [B] n range).map Prod.snd) =
      (get_combined_wave [A, B] n range).map Prod.snd := by
  by_cases hn : n = 0
  · subst hn
    simp only [get_combined_wave, if_pos rfl]
    by_cases hr' : 0 < range
    · rw [if_pos hr', if_pos hr', if_pos hr']
      have h := waveSum_append [A] [B] 0
      simp only [List.singleton_append] at h
      simp [h]
    · rw [if_neg hr', if_neg hr', if_neg hr']
      simp
  · simp only [get_combined_wave, if_neg hn]
    have h := combinedLoop_superpose [A] [B] range (range / n) n 0
    simpa using h

/-- C10: on every input list, of any length, `fft` returns a result of the
same length, the even half has at least `n / 2` elements, the odd half exactly
`n / 2`, and every write index `i` and `i + n / 2` used by the combine loop is
below `n` — so all slice indexing is in bounds and the function returns
normally. -/
theorem c10_inbounds (l : List ℂ) :
    (fft l).length = l.length ∧
      l.length / 2 ≤ (evens l).length ∧
      (odds l).length = l.length / 2 ∧
      ∀ i, i < l.length / 2 → i < l.length ∧ i + l.length / 2 < l.length := by
  refine ⟨fft_length l, ?_, odds_length l, ?_⟩
  · rw [evens_length]
    omega
  · intro i hi
    omega

theorem c10_inbounds_witness :
    (fft ([1, 0, 0, 0, 0, 0] : List ℂ)).length = ([1, 0, 0, 0, 0, 0] : List ℂ).length ∧
      ([1, 0, 0, 0, 0, 0] : List ℂ).length / 2 ≤ (evens ([1, 0, 0, 0, 0, 0] : List ℂ)).length ∧
      (odds ([1, 0, 0, 0, 0, 0] : List ℂ)).length = ([1, 0, 0, 0, 0, 0] : List ℂ).length / 2 ∧
      (1 < ([1, 0, 0, 0, 0, 0] : List ℂ).length / 2 ∧
        1 < ([1, 0, 0, 0, 0, 0] : List ℂ).length ∧
        1 + ([1, 0, 0, 0, 0, 0] : List ℂ).length / 2 < ([1, 0, 0, 0, 0, 0] : List ℂ).length) :=
  ⟨(c10_inbounds [1, 0, 0, 0, 0, 0]).1,
    (c10_inbounds [1, 0, 0, 0, 0, 0]).2.1,
    (c10_inbounds [1, 0, 0, 0, 0, 0]).2.2.1,
    by norm_num,
    ((c10_inbounds [1, 0, 0, 0, 0, 0]).2.2.2 1 (by norm_num)).1,
    ((c10_inbounds [1, 0, 0, 0, 0, 0]).2.2.2 1 (by norm_num)).2⟩

end FourierViz
